import Mathlib

/-!
# Page-aware chunking and citation-mapping pipeline: a shallow embedding

This file embeds the core of `scripts/filemanagement.py`: the page-map
extractor (`get_text_with_pages`), the page-range resolver
(`FileManager.find_page_range`), the chunk splitter walk
(`FileManager.text_splitter`) and the page-range fetcher
(`get_text_from_page_range`).

Modelling choices:
* Python text is a sequence of code points; we model it as `List Char`
  (`len` is `List.length`, `+` is `++`, slicing is `drop`/`take`).
* Python `int` is `Int`.
* A paginated document is the list of its pages' extracted texts
  (`doc[i].get_text()` is `pages.get? i`).
* The external parser / PDF library calls that can raise are modelled by
  outcome types with an explicit crash constructor; the `try/except`
  blocks of the source become matches on those outcomes.
-/

/-- One `(start_char, end_char, page_num)` tuple of a page map. -/
structure PageMapEntry where
  start_char : Int
  end_char : Int
  page_num : Int
deriving Repr, DecidableEq

/-- Python truthiness of `x or d` for an optional int `x` (`None` and `0`
are falsy): models `start_page or 1` / `end_page or start_page or 1` in
`find_page_range`. -/
def pyOr (x : Option Int) (d : Int) : Int :=
  match x with
  | none => d
  | some v => if v = 0 then d else v

/-- The overlap scan loop of `find_page_range`:
`for start_char, end_char, page_num in page_map: if chunk_start < end_char
and chunk_end > start_char: ...` accumulating `start_page` (first hit) and
`end_page` (last hit). -/
def overlapScan (cs ce : Int) (sp ep : Option Int) :
    List PageMapEntry → Option Int × Option Int
  | [] => (sp, ep)
  | e :: rest =>
    if cs < e.end_char ∧ ce > e.start_char then
      overlapScan cs ce
        (match sp with
         | none => some e.page_num
         | some a => some a)
        (some e.page_num) rest
    else
      overlapScan cs ce sp ep rest

/-- The distance computed by the nearest-page fallback of
`find_page_range` for one entry. -/
def chunkDistance (cs : Int) (e : PageMapEntry) : Int :=
  if cs < e.start_char then e.start_char - cs
  else if cs ≥ e.end_char then cs - e.end_char + 1
  else 0

/-- `d < min_distance` where `min_distance` starts as `float('inf')`
(modelled by `none`). -/
def ltMin (d : Int) (minD : Option Int) : Bool :=
  match minD with
  | none => true
  | some m => decide (d < m)

/-- The nearest-page loop of `find_page_range`: tracks `min_distance`
(`none` = infinity) and `nearest_page` (initially `1`), updating on a
strictly smaller distance. -/
def nearestScan (cs : Int) (minD : Option Int) (nearest : Int) :
    List PageMapEntry → Int
  | [] => nearest
  | e :: rest =>
    let d := chunkDistance cs e
    if ltMin d minD then nearestScan cs (some d) e.page_num rest
    else nearestScan cs minD nearest rest

/-- The containment test of the first fallback:
`chunk_start >= start_char and chunk_start < end_char`. -/
def containsStart (cs : Int) (e : PageMapEntry) : Bool :=
  decide (cs ≥ e.start_char ∧ cs < e.end_char)

/-- `FileManager.find_page_range`: degenerate guards, overlap scan,
containment fallback, nearest-page fallback, and the final
`start_page or 1` / `end_page or start_page or 1` result. -/
def find_page_range (chunk_start chunk_end : Int)
    (page_map : List PageMapEntry) : Int × Int :=
  if page_map = [] then (1, 1)
  else if chunk_start ≥ chunk_end then (1, 1)
  else
    let scanned := overlapScan chunk_start chunk_end none none page_map
    let resolved :=
      if scanned.1 = none then
        match page_map.find? (containsStart chunk_start) with
        | some e => (some e.page_num, some e.page_num)
        | none =>
          let nearest := nearestScan chunk_start none 1 page_map
          (some nearest, some nearest)
      else scanned
    (pyOr resolved.1 1, pyOr resolved.2 (pyOr resolved.1 1))

/-- The page loop of `get_text_with_pages`: walks the pages accumulating
`full_text` and appending one widened entry per page (`page_num` is the
1-based page counter). -/
def extractLoop : List (List Char) → List Char → Nat →
    List Char × List PageMapEntry
  | [], full, _ => (full, [])
  | pt :: rest, full, pn =>
    let start_char := full.length
    let full2 := full ++ pt
    let end_char := full2.length
    let endW := if end_char = start_char then start_char + 1 else end_char
    let r := extractLoop rest full2 (pn + 1)
    (r.1, ⟨(start_char : Int), (endW : Int), (pn : Int)⟩ :: r.2)

/-- `get_text_with_pages` on a readable paginated document: returns the
full text and the page map. -/
def get_text_with_pages (pages : List (List Char)) :
    List Char × List PageMapEntry :=
  extractLoop pages [] 1

/-- `get_text_from_page_range` on a readable paginated document:
0-based index clamping, the two empty-result guards, then concatenation
of the pages in `[start_idx, end_idx)`. -/
def get_text_from_page_range (pages : List (List Char))
    (start_page end_page : Int) : List Char :=
  let start_idx := max 0 (start_page - 1)
  let end_idx := min (pages.length : Int) end_page
  if start_idx ≥ (pages.length : Int) then []
  else if end_idx ≤ start_idx then []
  else ((pages.drop start_idx.toNat).take (end_idx - start_idx).toNat).flatten

/-- Outcome of the external Tika parse call in `get_text_from_file`:
`crash` models a raised exception, `ok none` a `None`/content-less parse
result, `ok (some c)` a parsed dict whose `content` is `c`. -/
inductive ParseOutcome where
  | crash : ParseOutcome
  | ok : Option (List Char) → ParseOutcome
deriving Repr, DecidableEq

/-- `get_text_from_file`: the `except` branch and the
`not parsed_file or not parsed_file.get('content')` branch both return
empty content; otherwise the parsed content is returned. -/
def get_text_from_file (parsed : ParseOutcome) : List Char :=
  match parsed with
  | .crash => []
  | .ok none => []
  | .ok (some c) => if c = [] then [] else c

/-- Outcome of opening the PDF with PyMuPDF: `crash` models a raised
exception, `ok pages` a readable document with the given page texts. -/
inductive PdfOutcome where
  | crash : PdfOutcome
  | ok : List (List Char) → PdfOutcome
deriving Repr, DecidableEq

/-- `get_text_with_pages` including its `try/except`: a crash falls back
to `get_text_from_file` (whose result has no `page_map`, read back as
`[]` by the caller's `.get("page_map", [])`). -/
def get_text_with_pages_total (pdf : PdfOutcome)
    (fallback : ParseOutcome) : List Char × List PageMapEntry :=
  match pdf with
  | .ok pages => get_text_with_pages pages
  | .crash => (get_text_from_file fallback, [])

/-- `get_text_from_page_range` including its `try/except`: a crash
returns the empty string. -/
def get_text_from_page_range_total (pdf : PdfOutcome)
    (start_page end_page : Int) : List Char :=
  match pdf with
  | .ok pages => get_text_from_page_range pages start_page end_page
  | .crash => []

/-- The chunk walk of `FileManager.text_splitter`: runs the character
cursor over the chunk texts produced by the external token splitter and
records `(content, start_page, end_page)` for each chunk. -/
def splitWalk (page_map : List PageMapEntry) :
    List (List Char) → Int → List (List Char × Int × Int)
  | [], _ => []
  | c :: rest, pos =>
    let chunk_start := pos
    let chunk_end := pos + (c.length : Int)
    let pr :=
      if page_map = [] then (1, 1)
      else find_page_range chunk_start chunk_end page_map
    (c, pr.1, pr.2) :: splitWalk page_map rest chunk_end

/-- `FileManager.text_splitter` given the chunk texts returned by
`splitter.split_text(content)`: the cursor starts at `0`. -/
def text_splitter (chunks : List (List Char))
    (page_map : List PageMapEntry) : List (List Char × Int × Int) :=
  splitWalk page_map chunks 0

/-- Well-formedness of a page map as produced for a real document and
assumed by the spec's `PageMap` type: pages are `≥ 1` and weakly
increasing in iteration order, every entry has positive width, entries
are char-contiguous, and the map starts at character `0`. -/
structure WFPageMap (pm : List PageMapEntry) : Prop where
  pages_pos : ∀ e ∈ pm, 1 ≤ e.page_num
  width_pos : ∀ e ∈ pm, e.start_char < e.end_char
  contiguous : List.Chain' (fun a b => a.end_char = b.start_char) pm
  pages_mono : List.Chain' (fun a b => a.page_num ≤ b.page_num) pm
  head_zero : ∀ e, pm.head? = some e → e.start_char = 0

/-- `x` if it is `some`, else `y`. -/
def optOr {α : Type _} (x y : Option α) : Option α :=
  match x with
  | some a => some a
  | none => y

/-- Closed form of the extractor's page map: entry `i` starts at the
length of the text of the pages before it and is widened to width at
least 1. -/
def pageMapSpec : List (List Char) → Nat → Nat → List PageMapEntry
  | [], _, _ => []
  | pt :: rest, off, pn =>
    ⟨(off : Int), ((off + max 1 pt.length : Nat) : Int), ((pn : Nat) : Int)⟩ ::
      pageMapSpec rest (off + pt.length) (pn + 1)

/-- For analysis only: the page a character position falls on — the page
of the first entry whose `end_char` exceeds it, or the last page when the
position lies past every entry. -/
def pageAt : List PageMapEntry → Int → Int
  | [], _ => 1
  | [e], _ => e.page_num
  | e :: e2 :: rest, cs =>
    if cs < e.end_char then e.page_num else pageAt (e2 :: rest) cs

theorem optOr_none {α : Type _} (x : Option α) : optOr x none = x := by
  cases x <;> rfl

theorem find?_append {α : Type _} {p : α → Bool} :
    ∀ l₁ l₂ : List α,
      (l₁ ++ l₂).find? p = optOr (l₁.find? p) (l₂.find? p) := by
  intro l₁ l₂
  induction l₁ with
  | nil => simp [optOr]
  | cons e rest ih =>
    by_cases h : p e
    · simp [List.find?_cons_of_pos _ h, optOr]
    · simp [List.find?_cons_of_neg _ h, ih]

/-- The first component of the overlap scan is the page of the first
overlapping entry (unless `start_page` was already set). -/
theorem overlapScan_fst (cs ce : Int) :
    ∀ (l : List PageMapEntry) (sp ep : Option Int),
      (overlapScan cs ce sp ep l).1 =
        optOr sp ((l.find? fun e =>
          decide (cs < e.end_char ∧ ce > e.start_char)).map
            PageMapEntry.page_num) := by
  intro l
  induction l with
  | nil => intro sp ep; simp [overlapScan, optOr_none]
  | cons e rest ih =>
    intro sp ep
    by_cases h : cs < e.end_char ∧ ce > e.start_char
    · have hb : decide (cs < e.end_char ∧ ce > e.start_char) = true :=
        decide_eq_true h
      simp only [overlapScan, if_pos h, ih, List.find?_cons, hb]
      cases sp <;> simp [optOr]
    · have hb : decide (cs < e.end_char ∧ ce > e.start_char) = false :=
        decide_eq_false h
      simp only [overlapScan, if_neg h, ih, List.find?_cons, hb]

/-- The second component of the overlap scan is the page of the last
overlapping entry, i.e. the first overlapping entry of the reversed map
(unless there is none, in which case `end_page` is left alone). -/
theorem overlapScan_snd (cs ce : Int) :
    ∀ (l : List PageMapEntry) (sp ep : Option Int),
      (overlapScan cs ce sp ep l).2 =
        optOr ((l.reverse.find? fun e =>
          decide (cs < e.end_char ∧ ce > e.start_char)).map
            PageMapEntry.page_num) ep := by
  intro l
  induction l with
  | nil => intro sp ep; simp [overlapScan, optOr]
  | cons e rest ih =>
    intro sp ep
    by_cases h : cs < e.end_char ∧ ce > e.start_char
    · have hb : decide (cs < e.end_char ∧ ce > e.start_char) = true :=
        decide_eq_true h
      simp only [overlapScan, if_pos h, ih]
      rw [List.reverse_cons, find?_append]
      simp only [List.find?_cons, List.find?_nil, hb]
      cases hr : rest.reverse.find? fun e =>
          decide (cs < e.end_char ∧ ce > e.start_char) <;>
        simp [hr, optOr]
    · have hb : decide (cs < e.end_char ∧ ce > e.start_char) = false :=
        decide_eq_false h
      simp only [overlapScan, if_neg h, ih]
      rw [List.reverse_cons, find?_append]
      simp only [List.find?_cons, List.find?_nil, hb]
      simp [optOr_none]

theorem pyOr_of_pos {v : Int} (h : 1 ≤ v) (d : Int) : pyOr (some v) d = v := by
  simp only [pyOr, if_neg (by omega : ¬ v = 0)]

/-- In a map whose pages are weakly increasing, the first hit of a scan
has a page number no larger than the first hit of the reversed scan
(i.e. the last hit). -/
theorem find?_le_find?_reverse {p : PageMapEntry → Bool} :
    ∀ {l : List PageMapEntry},
      List.Pairwise (fun a b => a.page_num ≤ b.page_num) l →
      ∀ {a b : PageMapEntry}, l.find? p = some a →
        l.reverse.find? p = some b → a.page_num ≤ b.page_num := by
  intro l
  induction l with
  | nil => intro _ a b ha; simp at ha
  | cons e rest ih =>
    intro hpw a b ha hb
    rw [List.reverse_cons, find?_append] at hb
    by_cases hp : p e
    · rw [List.find?_cons_of_pos _ hp] at ha
      cases ha
      cases hr : rest.reverse.find? p with
      | none =>
        rw [hr] at hb
        simp only [optOr, List.find?_cons_of_pos _ hp, List.find?_nil] at hb
        cases hb
        exact le_refl _
      | some b' =>
        rw [hr] at hb
        simp only [optOr] at hb
        cases hb
        have hbm : b ∈ rest := by
          have := List.mem_of_find?_eq_some hr
          simpa using this
        exact List.rel_of_pairwise_cons hpw hbm
    · rw [List.find?_cons_of_neg _ hp] at ha
      cases hr : rest.reverse.find? p with
      | none =>
        rw [hr] at hb
        simp only [optOr, List.find?_cons_of_neg _ hp, List.find?_nil] at hb
        exact Option.noConfusion hb
      | some b' =>
        rw [hr] at hb
        simp only [optOr] at hb
        cases hb
        exact ih (List.Pairwise.of_cons hpw) ha hr

theorem nearestScan_ge_one (cs : Int) :
    ∀ (l : List PageMapEntry) (minD : Option Int) (q : Int),
      (∀ e ∈ l, 1 ≤ e.page_num) → 1 ≤ q →
      1 ≤ nearestScan cs minD q l := by
  intro l
  induction l with
  | nil => intro minD q _ hq; simpa [nearestScan] using hq
  | cons e rest ih =>
    intro minD q hpos hq
    simp only [nearestScan]
    by_cases h : ltMin (chunkDistance cs e) minD
    · rw [if_pos h]
      exact ih _ _ (fun x hx => hpos x (List.mem_cons_of_mem _ hx))
        (hpos e (List.mem_cons_self _ _))
    · rw [if_neg h]
      exact ih _ _ (fun x hx => hpos x (List.mem_cons_of_mem _ hx)) hq

/-- Resolution in the overlap case: the result is built from the first
and last overlapping entries. -/
theorem find_page_range_overlap (cs ce : Int) (pm : List PageMapEntry)
    (hpm : pm ≠ []) (hlt : cs < ce) {ef el : PageMapEntry}
    (hf : (pm.find? fun e => decide (cs < e.end_char ∧ ce > e.start_char)) =
      some ef)
    (hr : (pm.reverse.find? fun e =>
      decide (cs < e.end_char ∧ ce > e.start_char)) = some el) :
    find_page_range cs ce pm =
      (pyOr (some ef.page_num) 1,
       pyOr (some el.page_num) (pyOr (some ef.page_num) 1)) := by
  have hge : ¬ cs ≥ ce := by omega
  have h1 : (overlapScan cs ce none none pm).1 = some ef.page_num := by
    rw [overlapScan_fst, hf]; rfl
  have h2 : (overlapScan cs ce none none pm).2 = some el.page_num := by
    rw [overlapScan_snd, hr]; rfl
  have hne : ¬ ((overlapScan cs ce none none pm).1 = none) := by
    rw [h1]; simp
  simp only [find_page_range, if_neg hpm, if_neg hge]
  rw [if_neg hne]
  simp only [h1, h2]

/-- Resolution in the containment-fallback case. -/
theorem find_page_range_contain (cs ce : Int) (pm : List PageMapEntry)
    (hpm : pm ≠ []) (hlt : cs < ce) {e : PageMapEntry}
    (hf : (pm.find? fun x => decide (cs < x.end_char ∧ ce > x.start_char)) =
      none)
    (hc : pm.find? (containsStart cs) = some e) :
    find_page_range cs ce pm =
      (pyOr (some e.page_num) 1,
       pyOr (some e.page_num) (pyOr (some e.page_num) 1)) := by
  have hge : ¬ cs ≥ ce := by omega
  have h1 : (overlapScan cs ce none none pm).1 = none := by
    rw [overlapScan_fst, hf]; rfl
  simp only [find_page_range, if_neg hpm, if_neg hge, h1, if_pos rfl, hc, ite_true]

/-- Resolution in the nearest-page-fallback case. -/
theorem find_page_range_nearest (cs ce : Int) (pm : List PageMapEntry)
    (hpm : pm ≠ []) (hlt : cs < ce)
    (hf : (pm.find? fun x => decide (cs < x.end_char ∧ ce > x.start_char)) =
      none)
    (hc : pm.find? (containsStart cs) = none) :
    find_page_range cs ce pm =
      (pyOr (some (nearestScan cs none 1 pm)) 1,
       pyOr (some (nearestScan cs none 1 pm))
         (pyOr (some (nearestScan cs none 1 pm)) 1)) := by
  have hge : ¬ cs ≥ ce := by omega
  have h1 : (overlapScan cs ce none none pm).1 = none := by
    rw [overlapScan_fst, hf]; rfl
  simp only [find_page_range, if_neg hpm, if_neg hge, h1, if_pos rfl, hc, ite_true]

/-- C1: for every chunk range and every valid page map (pages at least 1
and weakly increasing, the `PageMap` invariant), `find_page_range` returns
`start_page ≤ end_page` with both at least 1; the Lean embedding is a
total function, so it never raises, including on `chunk_start ≥ chunk_end`
and the empty page map (both covered by the degenerate guards). -/
theorem find_page_range_total_valid (cs ce : Int) (pm : List PageMapEntry)
    (hpos : ∀ e ∈ pm, 1 ≤ e.page_num)
    (hmono : List.Pairwise (fun a b => a.page_num ≤ b.page_num) pm) :
    1 ≤ (find_page_range cs ce pm).1 ∧
    (find_page_range cs ce pm).1 ≤ (find_page_range cs ce pm).2 ∧
    1 ≤ (find_page_range cs ce pm).2 := by
  by_cases hpm : pm = []
  · subst hpm
    simp [find_page_range]
  by_cases hge : cs ≥ ce
  · have h : find_page_range cs ce pm = (1, 1) := by
      simp only [find_page_range, if_neg hpm, if_pos hge]
    rw [h]
    refine ⟨le_refl _, le_refl _, le_refl _⟩
  have hlt : cs < ce := by omega
  cases hfind : pm.find? (fun e => decide (cs < e.end_char ∧ ce > e.start_char)) with
  | some ef =>
    have hsome : (pm.reverse.find? (fun e =>
        decide (cs < e.end_char ∧ ce > e.start_char))).isSome := by
      rw [List.find?_isSome]
      have hp := List.find?_some hfind
      exact ⟨ef, by simpa using List.mem_of_find?_eq_some hfind, hp⟩
    obtain ⟨el, hel⟩ := Option.isSome_iff_exists.mp hsome
    rw [find_page_range_overlap cs ce pm hpm hlt hfind hel]
    have hef1 : 1 ≤ ef.page_num := hpos _ (List.mem_of_find?_eq_some hfind)
    have hel1 : 1 ≤ el.page_num := hpos _
      (by simpa using List.mem_of_find?_eq_some hel)
    have hle : ef.page_num ≤ el.page_num :=
      find?_le_find?_reverse hmono hfind hel
    rw [pyOr_of_pos hef1, pyOr_of_pos hel1]
    exact ⟨hef1, hle, hel1⟩
  | none =>
    cases hcont : pm.find? (containsStart cs) with
    | some e =>
      rw [find_page_range_contain cs ce pm hpm hlt hfind hcont]
      have h1 : 1 ≤ e.page_num := hpos _ (List.mem_of_find?_eq_some hcont)
      rw [pyOr_of_pos h1, pyOr_of_pos h1]
      exact ⟨h1, le_refl _, h1⟩
    | none =>
      rw [find_page_range_nearest cs ce pm hpm hlt hfind hcont]
      have h1 : 1 ≤ nearestScan cs none 1 pm :=
        nearestScan_ge_one cs pm none 1 hpos (le_refl _)
      rw [pyOr_of_pos h1, pyOr_of_pos h1]
      exact ⟨h1, le_refl _, h1⟩

/-- C2: with a non-empty page map and `chunk_start < chunk_end`, an entry
overlaps exactly when `chunk_start < end_char ∧ chunk_end > start_char`,
and the result is the page of the first overlapping entry paired with the
page of the last overlapping entry (the first hit of the reversed scan).
The three concrete evaluations of the claim are in the witness. -/
theorem find_page_range_overlap_first_last (cs ce : Int)
    (pm : List PageMapEntry) (ef el : PageMapEntry)
    (hpos : ∀ e ∈ pm, 1 ≤ e.page_num) (hlt : cs < ce)
    (hf : (pm.find? fun e => decide (cs < e.end_char ∧ ce > e.start_char)) =
      some ef)
    (hl : (pm.reverse.find? fun e =>
      decide (cs < e.end_char ∧ ce > e.start_char)) = some el) :
    find_page_range cs ce pm = (ef.page_num, el.page_num) := by
  have hpm : pm ≠ [] :=
    List.ne_nil_of_mem (List.mem_of_find?_eq_some hf)
  rw [find_page_range_overlap cs ce pm hpm hlt hf hl]
  rw [pyOr_of_pos (hpos _ (List.mem_of_find?_eq_some hf)),
    pyOr_of_pos (hpos _ (by simpa using List.mem_of_find?_eq_some hl))]

theorem nearestScan_spec (cs : Int) :
    ∀ (l : List PageMapEntry) (m q : Int),
      (nearestScan cs (some m) q l = q ∧ ∀ x ∈ l, m ≤ chunkDistance cs x)
      ∨ (∃ l₁ e l₂, l = l₁ ++ e :: l₂ ∧
          nearestScan cs (some m) q l = e.page_num ∧
          chunkDistance cs e < m ∧
          (∀ x ∈ l₁, chunkDistance cs e < chunkDistance cs x) ∧
          (∀ x ∈ l, chunkDistance cs e ≤ chunkDistance cs x)) := by
  intro l
  induction l with
  | nil =>
    intro m q
    exact Or.inl ⟨rfl, by simp⟩
  | cons e rest ih =>
    intro m q
    by_cases hd : chunkDistance cs e < m
    · have hstep : nearestScan cs (some m) q (e :: rest) =
          nearestScan cs (some (chunkDistance cs e)) e.page_num rest := by
        simp only [nearestScan]
        rw [if_pos (by simp [ltMin, hd])]
      rcases ih (chunkDistance cs e) e.page_num with ⟨hval, hall⟩ |
        ⟨l₁, e', l₂, heq, hval, hlt', hstrict, hmin⟩
      · refine Or.inr ⟨[], e, rest, rfl, ?_, hd, by simp, ?_⟩
        · rw [hstep, hval]
        · intro x hx
          rcases List.mem_cons.mp hx with h | h
          · subst h; exact le_refl _
          · exact hall x h
      · refine Or.inr ⟨e :: l₁, e', l₂, by rw [heq, List.cons_append], ?_, lt_trans hlt' hd,
          ?_, ?_⟩
        · rw [hstep, hval]
        · intro x hx
          rcases List.mem_cons.mp hx with h | h
          · subst h; exact hlt'
          · exact hstrict x h
        · intro x hx
          rcases List.mem_cons.mp hx with h | h
          · subst h; exact le_of_lt hlt'
          · exact hmin x (heq ▸ h)
    · have hstep : nearestScan cs (some m) q (e :: rest) =
          nearestScan cs (some m) q rest := by
        simp only [nearestScan]
        rw [if_neg (by simp [ltMin, hd])]
      rcases ih m q with ⟨hval, hall⟩ |
        ⟨l₁, e', l₂, heq, hval, hlt', hstrict, hmin⟩
      · refine Or.inl ⟨by rw [hstep, hval], ?_⟩
        intro x hx
        rcases List.mem_cons.mp hx with h | h
        · subst h; omega
        · exact hall x h
      · refine Or.inr ⟨e :: l₁, e', l₂, by rw [heq, List.cons_append], by rw [hstep, hval],
          hlt', ?_, ?_⟩
        · intro x hx
          rcases List.mem_cons.mp hx with h | h
          · subst h; omega
          · exact hstrict x h
        · intro x hx
          rcases List.mem_cons.mp hx with h | h
          · subst h; omega
          · exact hmin x (heq ▸ h)

/-- The nearest-page loop returns the page of the first entry of minimum
distance from `chunk_start`. -/
theorem nearestScan_first_min (cs : Int) (pm : List PageMapEntry)
    (hpm : pm ≠ []) :
    ∃ l₁ e l₂, pm = l₁ ++ e :: l₂ ∧
      nearestScan cs none 1 pm = e.page_num ∧
      (∀ x ∈ l₁, chunkDistance cs e < chunkDistance cs x) ∧
      (∀ x ∈ pm, chunkDistance cs e ≤ chunkDistance cs x) := by
  cases pm with
  | nil => exact absurd rfl hpm
  | cons e0 rest =>
    have hstep : nearestScan cs none 1 (e0 :: rest) =
        nearestScan cs (some (chunkDistance cs e0)) e0.page_num rest := by
      simp only [nearestScan]
      rw [if_pos (by simp [ltMin])]
    rcases nearestScan_spec cs rest (chunkDistance cs e0) e0.page_num with
      ⟨hval, hall⟩ | ⟨l₁, e', l₂, heq, hval, hlt', hstrict, hmin⟩
    · refine ⟨[], e0, rest, rfl, by rw [hstep, hval], by simp, ?_⟩
      intro x hx
      rcases List.mem_cons.mp hx with h | h
      · subst h; exact le_refl _
      · exact hall x h
    · refine ⟨e0 :: l₁, e', l₂, by rw [heq, List.cons_append], by rw [hstep, hval], ?_, ?_⟩
      · intro x hx
        rcases List.mem_cons.mp hx with h | h
        · subst h; exact hlt'
        · exact hstrict x h
      · intro x hx
        rcases List.mem_cons.mp hx with h | h
        · subst h; exact le_of_lt hlt'
        · exact hmin x (heq ▸ h)

/-- C3: the fallback ladder in priority order — degenerate inputs give
`(1, 1)`; with no overlapping entry, a containment hit on `chunk_start`
gives that page for both ends; otherwise the entry of minimum
`chunkDistance` from `chunk_start` wins, ties broken by first occurrence
in iteration order. -/
theorem find_page_range_fallback_ladder (cs ce : Int)
    (pm : List PageMapEntry) (hpos : ∀ e ∈ pm, 1 ≤ e.page_num) :
    ((pm = [] ∨ cs ≥ ce) → find_page_range cs ce pm = (1, 1)) ∧
    (cs < ce →
      (∀ x ∈ pm, ¬ (cs < x.end_char ∧ ce > x.start_char)) →
      (∀ e : PageMapEntry, pm.find? (containsStart cs) = some e →
        find_page_range cs ce pm = (e.page_num, e.page_num)) ∧
      (pm ≠ [] → pm.find? (containsStart cs) = none →
        ∃ l₁ e l₂, pm = l₁ ++ e :: l₂ ∧
          find_page_range cs ce pm = (e.page_num, e.page_num) ∧
          (∀ x ∈ l₁, chunkDistance cs e < chunkDistance cs x) ∧
          (∀ x ∈ pm, chunkDistance cs e ≤ chunkDistance cs x))) := by
  constructor
  · rintro (hpm | hge)
    · subst hpm
      rfl
    · by_cases hpm : pm = []
      · subst hpm
        rfl
      · simp only [find_page_range, if_neg hpm, if_pos hge]
  · intro hlt hno
    have hf : (pm.find? fun e =>
        decide (cs < e.end_char ∧ ce > e.start_char)) = none :=
      List.find?_eq_none.mpr (fun x hx => by simpa using hno x hx)
    constructor
    · intro e he
      have hpm : pm ≠ [] :=
        List.ne_nil_of_mem (List.mem_of_find?_eq_some he)
      rw [find_page_range_contain cs ce pm hpm hlt hf he]
      rw [pyOr_of_pos (hpos _ (List.mem_of_find?_eq_some he)),
        pyOr_of_pos (hpos _ (List.mem_of_find?_eq_some he))]
    · intro hpm hc
      obtain ⟨l₁, e, l₂, heq, hval, hstrict, hmin⟩ :=
        nearestScan_first_min cs pm hpm
      have hmem : e ∈ pm := by rw [heq]; simp
      refine ⟨l₁, e, l₂, heq, ?_, hstrict, hmin⟩
      rw [find_page_range_nearest cs ce pm hpm hlt hf hc, hval]
      rw [pyOr_of_pos (hpos _ hmem), pyOr_of_pos (hpos _ hmem)]

/-- C10: containment of `chunk_start` in an entry implies overlap with it
whenever `chunk_start < chunk_end`, so when the overlap scan finds
nothing the containment fallback finds nothing either, and the result is
always produced by the nearest-page fallback. -/
theorem containment_fallback_unreachable (cs ce : Int)
    (pm : List PageMapEntry) (hlt : cs < ce)
    (hno : ∀ x ∈ pm, ¬ (cs < x.end_char ∧ ce > x.start_char)) :
    pm.find? (containsStart cs) = none ∧
    (pm ≠ [] → find_page_range cs ce pm =
      (pyOr (some (nearestScan cs none 1 pm)) 1,
       pyOr (some (nearestScan cs none 1 pm))
         (pyOr (some (nearestScan cs none 1 pm)) 1))) := by
  have hcont : pm.find? (containsStart cs) = none := by
    refine List.find?_eq_none.mpr (fun x hx => ?_)
    have hnx := hno x hx
    simp only [containsStart, decide_eq_true_eq]
    intro hcx
    exact hnx ⟨hcx.2, by omega⟩
  refine ⟨hcont, fun hpm => ?_⟩
  have hf : (pm.find? fun e =>
      decide (cs < e.end_char ∧ ce > e.start_char)) = none :=
    List.find?_eq_none.mpr (fun x hx => by simpa using hno x hx)
  exact find_page_range_nearest cs ce pm hpm hlt hf hcont

theorem extractLoop_eq :
    ∀ (ps : List (List Char)) (full : List Char) (pn : Nat),
      extractLoop ps full pn =
        (full ++ ps.flatten, pageMapSpec ps full.length pn) := by
  intro ps
  induction ps with
  | nil => intro full pn; simp [extractLoop, pageMapSpec]
  | cons pt rest ih =>
    intro full pn
    simp only [extractLoop, ih, pageMapSpec, List.flatten_cons]
    refine Prod.ext ?_ ?_
    · simp [List.append_assoc]
    · simp only [List.length_append]
      have hw : (if full.length + pt.length = full.length then
          full.length + 1 else full.length + pt.length) =
          full.length + max 1 pt.length := by
        by_cases h : pt.length = 0
        · rw [if_pos (by omega)]
          omega
        · rw [if_neg (by omega)]
          omega
      rw [hw]

theorem pageMapSpec_length :
    ∀ (ps : List (List Char)) (off pn : Nat),
      (pageMapSpec ps off pn).length = ps.length := by
  intro ps
  induction ps with
  | nil => intro off pn; rfl
  | cons pt rest ih => intro off pn; simp [pageMapSpec, ih]

theorem pageMapSpec_map_page :
    ∀ (ps : List (List Char)) (off pn : Nat),
      (pageMapSpec ps off pn).map PageMapEntry.page_num =
        (List.range ps.length).map (fun i => ((pn + i : Nat) : Int)) := by
  intro ps
  induction ps with
  | nil => intro off pn; rfl
  | cons pt rest ih =>
    intro off pn
    simp only [pageMapSpec, List.map_cons, ih, List.length_cons,
      List.range_succ_eq_map, List.map_cons, List.map_map]
    refine congrArg₂ List.cons (by simp) ?_
    refine List.map_congr_left (fun i hi => ?_)
    simp only [Function.comp_apply]
    congr 1
    omega

theorem pageMapSpec_get? :
    ∀ (ps : List (List Char)) (off pn i : Nat) (c : List Char),
      ps.get? i = some c →
      (pageMapSpec ps off pn).get? i =
        some ⟨((off + ((ps.take i).flatten).length : Nat) : Int),
          ((off + ((ps.take i).flatten).length + max 1 c.length : Nat) : Int),
          ((pn + i : Nat) : Int)⟩ := by
  intro ps
  induction ps with
  | nil => intro off pn i c hc; simp at hc
  | cons pt rest ih =>
    intro off pn i c hc
    cases i with
    | zero =>
      simp only [List.get?_cons_zero, Option.some_inj] at hc
      subst hc
      simp [pageMapSpec]
    | succ i =>
      simp only [List.get?_cons_succ] at hc
      have h := ih (off + pt.length) (pn + 1) i c hc
      simp only [pageMapSpec, List.get?_cons_succ, h, Option.some_inj]
      have h1 : off + pt.length + ((rest.take i).flatten).length =
          off + (((pt :: rest).take (i + 1)).flatten).length := by
        simp [List.take_succ_cons]
        omega
      have h2 : pn + 1 + i = pn + (i + 1) := by omega
      rw [h1, h2]

theorem get_text_with_pages_eq (pages : List (List Char)) :
    get_text_with_pages pages = (pages.flatten, pageMapSpec pages 0 1) := by
  simp [get_text_with_pages, extractLoop_eq]

theorem pageMapSpec_width :
    ∀ (ps : List (List Char)) (off pn : Nat),
      ∀ e ∈ pageMapSpec ps off pn, e.start_char < e.end_char := by
  intro ps
  induction ps with
  | nil => intro off pn e he; simp [pageMapSpec] at he
  | cons pt rest ih =>
    intro off pn e he
    simp only [pageMapSpec, List.mem_cons] at he
    rcases he with he | he
    · subst he
      simp only []
      have : off < off + max 1 pt.length := by omega
      exact_mod_cast this
    · exact ih _ _ e he

/-- C4 (amended): the extracted page map has exactly N entries with
strictly increasing 1-based pages `1..N`; consecutive entries are
char-contiguous whenever the earlier page produced text, and after an
empty (widened) page the next entry starts at `end_char - 1`. -/
theorem page_map_coverage (pages : List (List Char)) :
    ((get_text_with_pages pages).2).length = pages.length ∧
    ((get_text_with_pages pages).2).map PageMapEntry.page_num =
      (List.range pages.length).map (fun i => ((i + 1 : Nat) : Int)) ∧
    (∀ (i : Nat) (c : List Char) (e e2 : PageMapEntry),
      pages.get? i = some c →
      ((get_text_with_pages pages).2).get? i = some e →
      ((get_text_with_pages pages).2).get? (i + 1) = some e2 →
      (c ≠ [] → e2.start_char = e.end_char) ∧
      (c = [] → e2.start_char = e.end_char - 1)) := by
  rw [get_text_with_pages_eq]
  refine ⟨pageMapSpec_length pages 0 1, ?_, ?_⟩
  · rw [pageMapSpec_map_page]
    exact List.map_congr_left (fun i hi => by congr 1; omega)
  · intro i c e e2 hc he he2
    have hlen2 : i + 1 < pages.length := by
      have := List.get?_eq_some.mp he2
      obtain ⟨h, _⟩ := this
      rwa [pageMapSpec_length] at h
    obtain ⟨c2, hc2⟩ : ∃ c2, pages.get? (i + 1) = some c2 :=
      List.get?_eq_some.mpr ⟨hlen2, rfl⟩ |> fun h => ⟨_, h⟩
    rw [pageMapSpec_get? pages 0 1 i c hc] at he
    rw [pageMapSpec_get? pages 0 1 (i + 1) c2 hc2] at he2
    have hc' : pages[i]? = some c := by
      simpa [← List.get?_eq_getElem?] using hc
    have hL : (pages.take (i + 1)).flatten.length =
        (pages.take i).flatten.length + c.length := by
      rw [List.take_succ, hc']
      simp
    cases he
    cases he2
    constructor
    · intro hne
      have hcl : 1 ≤ c.length := by
        cases c with
        | nil => exact absurd rfl hne
        | cons a l => simp
      simp only []
      have : 0 + (pages.take (i + 1)).flatten.length =
          0 + (pages.take i).flatten.length + max 1 c.length := by
        rw [hL]
        omega
      exact_mod_cast this
    · intro hnil
      subst hnil
      simp only []
      have hL0 : (pages.take (i + 1)).flatten.length =
          (pages.take i).flatten.length := by
        simp only [List.length_nil, Nat.add_zero] at hL
        exact hL
      rw [hL0]
      push_cast
      omega

/-- C4 counterexample: for the two-page document whose first page is
empty, extraction yields entries `(0,1,1)` and `(0,1,2)`: the widened
`end_char` of the empty page is 1 while the next entry starts at 0, so
`entries[i].end_char = entries[i+1].start_char` fails. -/
theorem page_map_contiguity_cex :
    (get_text_with_pages [[], ['a']]).2 =
      [⟨0, 1, 1⟩, ⟨0, 1, 2⟩] ∧
    ¬ ((⟨0, 1, 1⟩ : PageMapEntry).end_char =
        (⟨0, 1, 2⟩ : PageMapEntry).start_char) := by
  constructor
  · rfl
  · decide

/-- C5: every page-map entry satisfies `start_char < end_char`, and a
page producing no text still yields an entry, widened so that
`end_char = start_char + 1`. -/
theorem empty_page_widening (pages : List (List Char)) :
    (∀ e ∈ (get_text_with_pages pages).2, e.start_char < e.end_char) ∧
    (∀ (i : Nat) (c : List Char) (e : PageMapEntry),
      pages.get? i = some c →
      ((get_text_with_pages pages).2).get? i = some e →
      c = [] → e.end_char = e.start_char + 1) := by
  rw [get_text_with_pages_eq]
  constructor
  · exact pageMapSpec_width pages 0 1
  · intro i c e hc he hnil
    subst hnil
    rw [pageMapSpec_get? pages 0 1 i [] hc] at he
    cases he
    simp only [List.length_nil]
    push_cast
    omega

theorem drop_get?_cons :
    ∀ (l : List (List Char)) (i : Nat) (c : List Char),
      l.get? i = some c → l.drop i = c :: l.drop (i + 1) := by
  intro l
  induction l with
  | nil => intro i c h; simp at h
  | cons a r ih =>
    intro i c h
    cases i with
    | zero =>
      simp only [List.get?_cons_zero, Option.some_inj] at h
      subst h
      rfl
    | succ i =>
      simp only [List.get?_cons_succ] at h
      simp only [List.drop_succ_cons, ih i c h]

/-- C6: fetching a single page p returns exactly the page text recorded
by extraction; for a non-empty page this equals the
`[start_char, end_char)` slice of the full text at p's map entry, and an
empty page fetches as the empty string although its widened entry has
width 1. -/
theorem fetch_extract_roundtrip (pages : List (List Char)) (p : Nat)
    (c : List Char) (e : PageMapEntry)
    (hp : 1 ≤ p) (hn : p ≤ pages.length)
    (hc : pages.get? (p - 1) = some c)
    (he : ((get_text_with_pages pages).2).get? (p - 1) = some e) :
    get_text_from_page_range pages (p : Int) (p : Int) = c ∧
    (c ≠ [] →
      (((get_text_with_pages pages).1.drop e.start_char.toNat).take
        (e.end_char.toNat - e.start_char.toNat)) = c) ∧
    (c = [] → get_text_from_page_range pages (p : Int) (p : Int) = [] ∧
      e.end_char = e.start_char + 1) := by
  rw [get_text_with_pages_eq] at he ⊢
  rw [pageMapSpec_get? pages 0 1 (p - 1) c hc] at he
  cases he
  have hplt : p - 1 < pages.length := by omega
  have hfetch : get_text_from_page_range pages (p : Int) (p : Int) = c := by
    simp only [get_text_from_page_range]
    have hsi : max 0 ((p : Int) - 1) = ((p - 1 : Nat) : Int) := by
      push_cast [hp]
      omega
    have hei : min ((pages.length : Nat) : Int) (p : Int) = (p : Int) := by
      have : (p : Int) ≤ (pages.length : Int) := by exact_mod_cast hn
      omega
    rw [if_neg, if_neg]
    · have hp1 : p - 1 + 1 = p := by omega
      have hdrop : pages.drop (p - 1) = c :: pages.drop p := by
        rw [drop_get?_cons pages (p - 1) c hc, hp1]
      have htoN : (max 0 ((p : Int) - 1)).toNat = p - 1 := by
        rw [hsi]; exact Int.toNat_natCast _
      have htake : (min ((pages.length : Nat) : Int) (p : Int) -
          max 0 ((p : Int) - 1)).toNat = 1 := by
        rw [hsi, hei]
        push_cast [hp]
        omega
      rw [htoN, htake, hdrop]
      simp
    · rw [hsi, hei]
      push_cast [hp]
      omega
    · rw [hsi]
      push_cast [hp]
      have : (p : Int) ≤ (pages.length : Int) := by exact_mod_cast hn
      omega
  refine ⟨hfetch, ?_, ?_⟩
  · intro hne
    have hcl : 1 ≤ c.length := by
      cases c with
      | nil => exact absurd rfl hne
      | cons a l => simp
    have hmax : max 1 c.length = c.length := by omega
    simp only [hmax]
    have hsplit : pages.flatten =
        (pages.take (p - 1)).flatten ++ (c :: pages.drop p).flatten := by
      conv =>
        lhs
        rw [← List.take_append_drop (p - 1) pages]
      rw [List.flatten_append]
      congr 2
      have hp1 : p - 1 + 1 = p := by omega
      rw [drop_get?_cons pages (p - 1) c hc, hp1]
    have hs : (((0 + ((pages.take (p - 1)).flatten).length : Nat) : Int)).toNat =
        ((pages.take (p - 1)).flatten).length := by
      rw [Int.toNat_natCast]
      omega
    simp only [hs, hsplit]
    rw [List.drop_left' (by simp), List.flatten_cons]
    have ht2 : (((0 + ((pages.take (p - 1)).flatten).length + c.length : Nat) : Int)).toNat -
        ((pages.take (p - 1)).flatten).length = c.length := by
      rw [Int.toNat_natCast]
      omega
    rw [ht2, List.take_left' rfl]
  · intro hnil
    subst hnil
    refine ⟨hfetch, ?_⟩
    simp only [List.length_nil]
    push_cast
    omega

/-- C7: the fetcher clamps to `start_idx = max 0 (start_page - 1)` and
`end_idx = min total_pages end_page`, returns empty on a range beyond the
document or an empty/inverted range, and otherwise concatenates pages
`[start_idx, end_idx)`; for a 5-page document, `fetch 6 10 = ""`,
`fetch 3 2 = ""`, and `fetch 1 5` is the full text. -/
theorem fetch_boundary_behavior (pages : List (List Char)) (sp ep : Int)
    (p1 p2 p3 p4 p5 : List Char) :
    (max 0 (sp - 1) ≥ (pages.length : Int) →
      get_text_from_page_range pages sp ep = []) ∧
    (min (pages.length : Int) ep ≤ max 0 (sp - 1) →
      get_text_from_page_range pages sp ep = []) ∧
    (max 0 (sp - 1) < (pages.length : Int) →
      max 0 (sp - 1) < min (pages.length : Int) ep →
      get_text_from_page_range pages sp ep =
        ((pages.drop (max 0 (sp - 1)).toNat).take
          (min (pages.length : Int) ep - max 0 (sp - 1)).toNat).flatten) ∧
    (get_text_from_page_range pages 1 (pages.length : Int) = pages.flatten) ∧
    (get_text_from_page_range [p1, p2, p3, p4, p5] 6 10 = []) ∧
    (get_text_from_page_range [p1, p2, p3, p4, p5] 3 2 = []) ∧
    (get_text_from_page_range [p1, p2, p3, p4, p5] 1 5 =
      p1 ++ (p2 ++ (p3 ++ (p4 ++ p5)))) := by
  refine ⟨?_, ?_, ?_, ?_, ?_, ?_, ?_⟩
  · intro h
    simp only [get_text_from_page_range]
    rw [if_pos h]
  · intro h
    simp only [get_text_from_page_range]
    by_cases h1 : max 0 (sp - 1) ≥ (pages.length : Int)
    · rw [if_pos h1]
    · rw [if_neg h1, if_pos h]
  · intro h1 h2
    simp only [get_text_from_page_range]
    rw [if_neg (by omega), if_neg (by omega)]
  · simp only [get_text_from_page_range]
    by_cases h0 : pages = []
    · subst h0
      simp
    · have hlen : 1 ≤ (pages.length : Int) := by
        have : 0 < pages.length := List.length_pos.mpr h0
        exact_mod_cast this
      rw [if_neg (by omega), if_neg (by omega)]
      have h1 : (max 0 ((1 : Int) - 1)).toNat = 0 := by decide
      have h2 : (min ((pages.length : Nat) : Int) ((pages.length : Nat) : Int) -
          max 0 ((1 : Int) - 1)).toNat = pages.length := by
        simp
      rw [h1, h2]
      simp
  · rfl
  · rfl
  · simp only [get_text_from_page_range]
    norm_num
    simp [List.flatten]

/-- C8: data-quality failures never propagate — a crashed or content-less
parse yields content `""` from `get_text_from_file`, a crashed PDF open
degrades `get_text_with_pages` to empty content with no page map, and a
crashed page-range fetch returns `""`. -/
theorem error_propagation_policy :
    get_text_from_file ParseOutcome.crash = [] ∧
    get_text_from_file (ParseOutcome.ok none) = [] ∧
    get_text_with_pages_total PdfOutcome.crash ParseOutcome.crash = ([], []) ∧
    get_text_with_pages_total PdfOutcome.crash (ParseOutcome.ok none) = ([], []) ∧
    (∀ sp ep : Int, get_text_from_page_range_total PdfOutcome.crash sp ep = []) :=
  ⟨rfl, rfl, rfl, rfl, fun _ _ => rfl⟩

theorem pageAt_mem :
    ∀ (pm : List PageMapEntry) (cs : Int), pm ≠ [] →
      ∃ e ∈ pm, pageAt pm cs = e.page_num := by
  intro pm
  induction pm with
  | nil => intro cs h; exact absurd rfl h
  | cons e rest ih =>
    intro cs _
    cases rest with
    | nil => exact ⟨e, by simp, rfl⟩
    | cons e2 rest2 =>
      by_cases h : cs < e.end_char
      · exact ⟨e, by simp, by simp [pageAt, if_pos h]⟩
      · obtain ⟨x, hx, hval⟩ := ih cs (by simp)
        exact ⟨x, List.mem_cons_of_mem _ hx, by simp [pageAt, if_neg h, hval]⟩

theorem pageAt_mono :
    ∀ (pm : List PageMapEntry) (cs cs' : Int),
      List.Pairwise (fun a b => a.page_num ≤ b.page_num) pm →
      cs ≤ cs' → pageAt pm cs ≤ pageAt pm cs' := by
  intro pm
  induction pm with
  | nil => intro cs cs' _ _; exact le_refl _
  | cons e rest ih =>
    intro cs cs' hpw hle
    cases rest with
    | nil => exact le_refl _
    | cons e2 rest2 =>
      by_cases h' : cs' < e.end_char
      · have h : cs < e.end_char := lt_of_le_of_lt hle h'
        simp [pageAt, if_pos h, if_pos h']
      · by_cases h : cs < e.end_char
        · simp only [pageAt, if_pos h, if_neg h']
          obtain ⟨x, hx, hval⟩ := pageAt_mem (e2 :: rest2) cs' (by simp)
          rw [hval]
          exact List.rel_of_pairwise_cons hpw hx
        · simp only [pageAt, if_neg h, if_neg h']
          exact ih cs cs' (List.Pairwise.of_cons hpw) hle

/-- With a contiguous map whose head starts at or before `chunk_start`,
the first entry with `chunk_start < end_char` is exactly the first
overlapping entry, and is the page `pageAt` reports; if there is none,
every entry ends at or before `chunk_start`. -/
theorem find?_end_char_spec (cs ce : Int) (hlt : cs < ce) :
    ∀ pm : List PageMapEntry,
      List.Chain' (fun a b => a.end_char = b.start_char) pm →
      (∀ e, pm.head? = some e → e.start_char ≤ cs) →
      (∀ ef, pm.find? (fun e => decide (cs < e.end_char)) = some ef →
        (pm.find? fun e => decide (cs < e.end_char ∧ ce > e.start_char)) =
          some ef ∧ pageAt pm cs = ef.page_num) ∧
      ((pm.find? (fun e => decide (cs < e.end_char))) = none →
        (pm.find? fun e => decide (cs < e.end_char ∧ ce > e.start_char)) =
          none ∧ (∀ e ∈ pm, e.end_char ≤ cs)) := by
  intro pm
  induction pm with
  | nil =>
    intro _ _
    constructor
    · intro ef hef; simp at hef
    · intro _; simp
  | cons e rest ih =>
    intro hchain hhead
    have hst : e.start_char ≤ cs := hhead e rfl
    by_cases h : cs < e.end_char
    · constructor
      · intro ef hef
        rw [List.find?_cons_of_pos _ (by simpa using h)] at hef
        cases hef
        constructor
        · rw [List.find?_cons_of_pos _ (by simp; constructor; exact h; omega)]
        · cases rest with
          | nil => rfl
          | cons e2 rest2 => simp [pageAt, if_pos h]
      · intro hnone
        rw [List.find?_cons_of_pos _ (by simpa using h)] at hnone
        exact Option.noConfusion hnone
    · have hpast : e.end_char ≤ cs := by omega
      have hchain2 := List.Chain'.tail hchain
      have hhead2 : ∀ x, rest.head? = some x → x.start_char ≤ cs := by
        intro x hx
        cases rest with
        | nil => simp at hx
        | cons e2 rest2 =>
          simp only [List.head?_cons, Option.some_inj] at hx
          subst hx
          have := List.Chain'.rel_head hchain
          omega
      obtain ⟨ihs, ihn⟩ := ih hchain2 hhead2
      constructor
      · intro ef hef
        rw [List.find?_cons_of_neg _ (by simpa using h)] at hef
        obtain ⟨h1, h2⟩ := ihs ef hef
        constructor
        · rw [List.find?_cons_of_neg _ (by simp; intro hc; omega)]
          exact h1
        · cases rest with
          | nil => simp at hef
          | cons e2 rest2 => simp [pageAt, if_neg h, h2]
      · intro hnone
        rw [List.find?_cons_of_neg _ (by simpa using h)] at hnone
        obtain ⟨h1, h2⟩ := ihn hnone
        constructor
        · rw [List.find?_cons_of_neg _ (by simp; intro hc; omega)]
          exact h1
        · intro x hx
          rcases List.mem_cons.mp hx with hx | hx
          · subst hx; exact hpast
          · exact h2 x hx

theorem nearestScan_all_past_aux (cs : Int) :
    ∀ (rest : List PageMapEntry) (e0 : PageMapEntry) (m q : Int),
      List.Chain' (fun a b => a.end_char = b.start_char) (e0 :: rest) →
      (∀ e ∈ e0 :: rest, e.start_char < e.end_char) →
      (∀ e ∈ e0 :: rest, e.end_char ≤ cs) →
      chunkDistance cs e0 < m →
      nearestScan cs (some m) q (e0 :: rest) =
        (rest.getLast?.getD e0).page_num := by
  intro rest
  induction rest with
  | nil =>
    intro e0 m q _ _ _ hd
    simp only [nearestScan]
    rw [if_pos (by simp [ltMin, hd])]
    rfl
  | cons e1 rest1 ih =>
    intro e0 m q hchain hwidth hpast hd
    have hstep : nearestScan cs (some m) q (e0 :: e1 :: rest1) =
        nearestScan cs (some (chunkDistance cs e0)) e0.page_num
          (e1 :: rest1) := by
      simp only [nearestScan]
      rw [if_pos (by simp [ltMin, hd])]
    have hp0 : e0.end_char ≤ cs := hpast e0 (by simp)
    have hp1 : e1.end_char ≤ cs := hpast e1 (by simp)
    have hc01 := List.Chain'.rel_head hchain
    have hw1 : e1.start_char < e1.end_char := hwidth e1 (by simp)
    have hw0 : e0.start_char < e0.end_char := hwidth e0 (by simp)
    have hd1 : chunkDistance cs e1 < chunkDistance cs e0 := by
      simp only [chunkDistance]
      rw [if_neg (by omega), if_pos (by omega),
        if_neg (by omega), if_pos (by omega)]
      omega
    rw [hstep, ih e1 (chunkDistance cs e0) e0.page_num
      (List.Chain'.tail hchain)
      (fun e he => hwidth e (List.mem_cons_of_mem _ he))
      (fun e he => hpast e (List.mem_cons_of_mem _ he)) hd1]
    cases hl : rest1.getLast? with
    | none =>
      simp only [List.getLast?_cons, hl]
      rfl
    | some x =>
      simp only [List.getLast?_cons, hl]
      rfl

theorem nearestScan_all_past (cs : Int) (e0 : PageMapEntry)
    (rest : List PageMapEntry)
    (hchain : List.Chain' (fun a b => a.end_char = b.start_char) (e0 :: rest))
    (hwidth : ∀ e ∈ e0 :: rest, e.start_char < e.end_char)
    (hpast : ∀ e ∈ e0 :: rest, e.end_char ≤ cs) :
    nearestScan cs none 1 (e0 :: rest) =
      (rest.getLast?.getD e0).page_num := by
  cases rest with
  | nil =>
    simp only [nearestScan]
    rw [if_pos (by simp [ltMin])]
    rfl
  | cons e1 rest1 =>
    have hstep : nearestScan cs none 1 (e0 :: e1 :: rest1) =
        nearestScan cs (some (chunkDistance cs e0)) e0.page_num
          (e1 :: rest1) := by
      simp only [nearestScan]
      rw [if_pos (by simp [ltMin])]
    have hp0 : e0.end_char ≤ cs := hpast e0 (by simp)
    have hp1 : e1.end_char ≤ cs := hpast e1 (by simp)
    have hc01 := List.Chain'.rel_head hchain
    have hw1 : e1.start_char < e1.end_char := hwidth e1 (by simp)
    have hw0 : e0.start_char < e0.end_char := hwidth e0 (by simp)
    have hd1 : chunkDistance cs e1 < chunkDistance cs e0 := by
      simp only [chunkDistance]
      rw [if_neg (by omega), if_pos (by omega),
        if_neg (by omega), if_pos (by omega)]
      omega
    rw [hstep, nearestScan_all_past_aux cs rest1 e1 (chunkDistance cs e0)
      e0.page_num (List.Chain'.tail hchain)
      (fun e he => hwidth e (List.mem_cons_of_mem _ he))
      (fun e he => hpast e (List.mem_cons_of_mem _ he)) hd1]
    cases hl : rest1.getLast? with
    | none =>
      simp only [List.getLast?_cons, hl]
      rfl
    | some x =>
      simp only [List.getLast?_cons, hl]
      rfl

theorem pageAt_all_past (cs : Int) :
    ∀ (rest : List PageMapEntry) (e0 : PageMapEntry),
      (∀ e ∈ e0 :: rest, e.end_char ≤ cs) →
      pageAt (e0 :: rest) cs = (rest.getLast?.getD e0).page_num := by
  intro rest
  induction rest with
  | nil => intro e0 _; rfl
  | cons e1 rest1 ih =>
    intro e0 hpast
    have hp0 : e0.end_char ≤ cs := hpast e0 (by simp)
    simp only [pageAt]
    rw [if_neg (by omega)]
    rw [ih e1 (fun e he => hpast e (List.mem_cons_of_mem _ he))]
    cases hl : rest1.getLast? with
    | none =>
      simp only [List.getLast?_cons, hl]
      rfl
    | some x =>
      simp only [List.getLast?_cons, hl]
      rfl

/-- Helper: the default-or-last entry of a cons list is a member. -/
theorem getLastD_mem : ∀ (rest : List PageMapEntry) (e0 : PageMapEntry),
    rest.getLast?.getD e0 ∈ e0 :: rest := by
  intro rest
  induction rest with
  | nil => intro e0; simp
  | cons e1 r ih =>
    intro e0
    rw [List.getLast?_cons]
    simpa using List.mem_cons_of_mem e0 (ih e1)

/-- Under a well-formed page map, the resolver's `start_page` is the page
on which `chunk_start` falls. -/
theorem find_page_range_fst_pageAt (cs ce : Int) (pm : List PageMapEntry)
    (hwf : WFPageMap pm) (hpm : pm ≠ []) (h0 : 0 ≤ cs) (hlt : cs < ce) :
    (find_page_range cs ce pm).1 = pageAt pm cs := by
  have hhead : ∀ e, pm.head? = some e → e.start_char ≤ cs := by
    intro e he
    have := hwf.head_zero e he
    omega
  obtain ⟨hsome, hnone⟩ := find?_end_char_spec cs ce hlt pm hwf.contiguous hhead
  cases hfind : pm.find? (fun e => decide (cs < e.end_char)) with
  | some ef =>
    obtain ⟨hov, hpage⟩ := hsome ef hfind
    have hrsome : (pm.reverse.find? (fun e =>
        decide (cs < e.end_char ∧ ce > e.start_char))).isSome := by
      rw [List.find?_isSome]
      have hp := List.find?_some hov
      exact ⟨ef, by simpa using List.mem_of_find?_eq_some hov, hp⟩
    obtain ⟨el, hel⟩ := Option.isSome_iff_exists.mp hrsome
    rw [find_page_range_overlap cs ce pm hpm hlt hov hel]
    have h1 : 1 ≤ ef.page_num :=
      hwf.pages_pos _ (List.mem_of_find?_eq_some hov)
    simp only []
    rw [pyOr_of_pos h1, hpage]
  | none =>
    obtain ⟨hov, hpast⟩ := hnone hfind
    have hcont : pm.find? (containsStart cs) = none := by
      refine List.find?_eq_none.mpr (fun x hx => ?_)
      have := hpast x hx
      simp only [containsStart, decide_eq_true_eq]
      omega
    rw [find_page_range_nearest cs ce pm hpm hlt hov hcont]
    cases pm with
    | nil => exact absurd rfl hpm
    | cons e0 rest =>
      have hval := nearestScan_all_past cs e0 rest hwf.contiguous
        hwf.width_pos hpast
      have hmem := getLastD_mem rest e0
      have h1 : 1 ≤ (rest.getLast?.getD e0).page_num := hwf.pages_pos _ hmem
      simp only [hval]
      rw [pyOr_of_pos h1]
      exact (pageAt_all_past cs rest e0 hpast).symm

theorem splitWalk_map_fst (pm : List PageMapEntry) :
    ∀ (chunks : List (List Char)) (pos : Int),
      (splitWalk pm chunks pos).map (fun t => t.1) = chunks := by
  intro chunks
  induction chunks with
  | nil => intro pos; rfl
  | cons c rest ih => intro pos; simp [splitWalk, ih]

theorem splitWalk_get? (pm : List PageMapEntry) :
    ∀ (chunks : List (List Char)) (pos : Int) (i : Nat),
      (splitWalk pm chunks pos).get? i =
        (chunks.get? i).map (fun c =>
          (c, if pm = [] then (1, 1)
              else find_page_range
                (pos + (((chunks.take i).flatten).length : Int))
                (pos + (((chunks.take i).flatten).length : Int) +
                  (c.length : Int)) pm)) := by
  intro chunks
  induction chunks with
  | nil => intro pos i; simp [splitWalk]
  | cons c0 rest ih =>
    intro pos i
    cases i with
    | zero =>
      simp [splitWalk, Prod.mk.eta]
    | succ i =>
      simp only [splitWalk, List.get?_cons_succ]
      rw [ih (pos + (c0.length : Int)) i]
      cases hg : rest.get? i with
      | none => rfl
      | some c =>
        simp only [Option.map_some']
        have harg : pos + (c0.length : Int) +
            (((rest.take i).flatten).length : Int) =
            pos + ((((c0 :: rest).take (i + 1)).flatten).length : Int) := by
          rw [List.take_succ_cons, List.flatten_cons, List.length_append]
          push_cast
          ring
        rw [harg]

theorem splitWalk_chain (pm : List PageMapEntry) (hwf : WFPageMap pm) :
    ∀ (chunks : List (List Char)) (pos : Int), 0 ≤ pos →
      (∀ c ∈ chunks, c ≠ []) →
      List.Chain' (fun a b => a.2.1 ≤ b.2.1) (splitWalk pm chunks pos) := by
  have hpw : List.Pairwise (fun a b => a.page_num ≤ b.page_num) pm := by
    haveI : IsTrans PageMapEntry (fun a b => a.page_num ≤ b.page_num) :=
      ⟨fun a b c h1 h2 => le_trans h1 h2⟩
    rw [← List.chain'_iff_pairwise]
    exact hwf.pages_mono
  intro chunks
  induction chunks with
  | nil => intro pos _ _; simp [splitWalk]
  | cons c rest ih =>
    intro pos hpos hne
    have hcl : 1 ≤ (c.length : Int) := by
      have : c ≠ [] := hne c (by simp)
      have : 0 < c.length := List.length_pos.mpr this
      exact_mod_cast this
    simp only [splitWalk]
    rw [List.chain'_cons']
    constructor
    · intro b hb
      cases rest with
      | nil => simp [splitWalk] at hb
      | cons c2 rest2 =>
        simp only [splitWalk, List.head?_cons, Option.mem_def,
          Option.some_inj] at hb
        subst hb
        by_cases hpm : pm = []
        · simp [hpm]
        · simp only [hpm, if_neg, ite_false]
          have hc2l : 1 ≤ (c2.length : Int) := by
            have : c2 ≠ [] := hne c2 (by simp)
            have : 0 < c2.length := List.length_pos.mpr this
            exact_mod_cast this
          rw [find_page_range_fst_pageAt pos (pos + (c.length : Int)) pm hwf
            hpm hpos (by omega)]
          rw [find_page_range_fst_pageAt (pos + (c.length : Int))
            (pos + (c.length : Int) + (c2.length : Int)) pm hwf hpm
            (by omega) (by omega)]
          exact pageAt_mono pm pos (pos + (c.length : Int)) hpw (by omega)
    · exact ih (pos + (c.length : Int)) (by omega)
        (fun x hx => hne x (List.mem_cons_of_mem _ hx))

/-- C9 (amended): the splitter walk keeps every chunk in original order
(never reorders or drops), resolves chunk i at the running-cursor span
`[Σ previous lengths, + len)`, and for a well-formed page map and
non-empty chunk texts the resolved start pages are monotonically
non-decreasing. -/
theorem text_splitter_order_spans_monotone (chunks : List (List Char))
    (pm : List PageMapEntry) (hne : ∀ c ∈ chunks, c ≠ [])
    (hwf : WFPageMap pm) :
    ((text_splitter chunks pm).map (fun t => t.1) = chunks) ∧
    (∀ i : Nat, (text_splitter chunks pm).get? i =
      (chunks.get? i).map (fun c =>
        (c, if pm = [] then (1, 1)
            else find_page_range ((((chunks.take i).flatten).length : Int))
              (((((chunks.take i).flatten).length : Int)) + (c.length : Int))
              pm))) ∧
    List.Chain' (fun a b => a.2.1 ≤ b.2.1) (text_splitter chunks pm) := by
  refine ⟨splitWalk_map_fst pm chunks 0, ?_,
    splitWalk_chain pm hwf chunks 0 (le_refl 0) hne⟩
  intro i
  rw [text_splitter, splitWalk_get? pm chunks 0 i]
  simp only [zero_add]

/-- C9 counterexample: over the well-formed page map
`[(0,3,1),(3,5,2)]`, the chunk-text sequence `["aaa", "bb", ""]` resolves
to start pages `[1, 2, 1]`: the empty chunk hits the degenerate
`chunk_start ≥ chunk_end` guard and resets to page 1, so the resolved
page ranges are not monotonically non-decreasing. -/
theorem text_splitter_monotone_cex :
    WFPageMap [⟨0, 3, 1⟩, ⟨3, 5, 2⟩] ∧
    ((text_splitter [['a', 'a', 'a'], ['b', 'b'], []]
        [⟨0, 3, 1⟩, ⟨3, 5, 2⟩]).map (fun t => t.2.1) = [1, 2, 1]) ∧
    ¬ List.Chain' (fun a b => a.2.1 ≤ b.2.1)
      (text_splitter [['a', 'a', 'a'], ['b', 'b'], []]
        [⟨0, 3, 1⟩, ⟨3, 5, 2⟩]) := by
  refine ⟨⟨?_, ?_, ?_, ?_, ?_⟩, ?_, ?_⟩
  · decide
  · decide
  · exact List.chain'_cons.mpr ⟨rfl, List.chain'_singleton _⟩
  · exact List.chain'_cons.mpr ⟨by decide, List.chain'_singleton _⟩
  · intro e he
    simp only [List.head?_cons, Option.some_inj] at he
    subst he
    rfl
  · decide
  · intro h
    have hval : text_splitter [['a', 'a', 'a'], ['b', 'b'], []]
        [⟨0, 3, 1⟩, ⟨3, 5, 2⟩] =
        [(['a', 'a', 'a'], 1, 1), (['b', 'b'], 2, 2), ([], 1, 1)] := by
      decide
    rw [hval] at h
    have h2 := (List.chain'_cons.mp (List.chain'_cons.mp h).2).1
    exact absurd h2 (by decide)

theorem find_page_range_total_valid_witness :
    (∀ e ∈ ([⟨0, 10, 1⟩, ⟨10, 20, 2⟩] : List PageMapEntry),
      1 ≤ e.page_num) ∧
    List.Pairwise (fun a b => a.page_num ≤ b.page_num)
      ([⟨0, 10, 1⟩, ⟨10, 20, 2⟩] : List PageMapEntry) ∧
    (1 ≤ (find_page_range 5 15 [⟨0, 10, 1⟩, ⟨10, 20, 2⟩]).1 ∧
      (find_page_range 5 15 [⟨0, 10, 1⟩, ⟨10, 20, 2⟩]).1 ≤
        (find_page_range 5 15 [⟨0, 10, 1⟩, ⟨10, 20, 2⟩]).2 ∧
      1 ≤ (find_page_range 5 15 [⟨0, 10, 1⟩, ⟨10, 20, 2⟩]).2) :=
  ⟨by decide, by decide,
    find_page_range_total_valid 5 15 _ (by decide) (by decide)⟩

theorem find_page_range_overlap_first_last_witness :
    find_page_range 5 15 [⟨0, 10, 1⟩, ⟨10, 20, 2⟩, ⟨20, 30, 3⟩] = (1, 2) ∧
    find_page_range 12 18 [⟨0, 10, 1⟩, ⟨10, 20, 2⟩, ⟨20, 30, 3⟩] = (2, 2) ∧
    find_page_range 25 35 [⟨0, 10, 1⟩, ⟨10, 20, 2⟩, ⟨20, 30, 3⟩] = (3, 3) :=
  ⟨find_page_range_overlap_first_last 5 15 _ ⟨0, 10, 1⟩ ⟨10, 20, 2⟩
      (by decide) (by decide) (by decide) (by decide),
    find_page_range_overlap_first_last 12 18 _ ⟨10, 20, 2⟩ ⟨10, 20, 2⟩
      (by decide) (by decide) (by decide) (by decide),
    find_page_range_overlap_first_last 25 35 _ ⟨20, 30, 3⟩ ⟨20, 30, 3⟩
      (by decide) (by decide) (by decide) (by decide)⟩

theorem find_page_range_fallback_ladder_witness :
    (∀ e ∈ ([⟨0, 10, 1⟩] : List PageMapEntry), 1 ≤ e.page_num) ∧
    find_page_range 3 3 [⟨0, 10, 1⟩] = (1, 1) :=
  ⟨by decide,
    (find_page_range_fallback_ladder 3 3 _ (by decide)).1 (Or.inr (by decide))⟩

theorem page_map_coverage_witness :
    (([['x'], ['y', 'z']] : List (List Char)).get? 0 = some ['x']) ∧
    ((get_text_with_pages [['x'], ['y', 'z']]).2.get? 0 = some ⟨0, 1, 1⟩) ∧
    ((get_text_with_pages [['x'], ['y', 'z']]).2.get? 1 = some ⟨1, 3, 2⟩) ∧
    ((⟨1, 3, 2⟩ : PageMapEntry).start_char =
      (⟨0, 1, 1⟩ : PageMapEntry).end_char) :=
  ⟨rfl, rfl, rfl,
    ((page_map_coverage [['x'], ['y', 'z']]).2.2 0 ['x'] ⟨0, 1, 1⟩ ⟨1, 3, 2⟩
      rfl rfl rfl).1 (by decide)⟩

theorem empty_page_widening_witness :
    (([[], ['a']] : List (List Char)).get? 0 = some []) ∧
    ((get_text_with_pages [[], ['a']]).2.get? 0 = some ⟨0, 1, 1⟩) ∧
    ((⟨0, 1, 1⟩ : PageMapEntry).end_char =
      (⟨0, 1, 1⟩ : PageMapEntry).start_char + 1) :=
  ⟨rfl, rfl,
    (empty_page_widening [[], ['a']]).2 0 [] ⟨0, 1, 1⟩ rfl rfl rfl⟩

theorem fetch_extract_roundtrip_witness :
    (1 ≤ 3 ∧ 3 ≤ ([['a'], [], ['b', 'c']] : List (List Char)).length) ∧
    (([['a'], [], ['b', 'c']] : List (List Char)).get? 2 = some ['b', 'c']) ∧
    ((get_text_with_pages [['a'], [], ['b', 'c']]).2.get? 2 =
      some ⟨1, 3, 3⟩) ∧
    get_text_from_page_range [['a'], [], ['b', 'c']] 3 3 = ['b', 'c'] :=
  ⟨⟨by decide, by decide⟩, rfl, rfl,
    (fetch_extract_roundtrip [['a'], [], ['b', 'c']] 3 ['b', 'c'] ⟨1, 3, 3⟩
      (by decide) (by decide) rfl rfl).1⟩

theorem fetch_boundary_behavior_witness :
    (max 0 ((6 : Int) - 1) ≥
      ((([['a'], ['b'], ['c'], ['d'], ['e']] : List (List Char)).length :
        Int))) ∧
    get_text_from_page_range [['a'], ['b'], ['c'], ['d'], ['e']] 6 10 = [] :=
  ⟨by decide,
    (fetch_boundary_behavior [['a'], ['b'], ['c'], ['d'], ['e']] 6 10
      [] [] [] [] []).1 (by decide)⟩

theorem text_splitter_order_spans_monotone_witness :
    (∀ c ∈ ([['a', 'b', 'c'], ['d', 'e']] : List (List Char)), c ≠ []) ∧
    WFPageMap [⟨0, 3, 1⟩, ⟨3, 5, 2⟩] ∧
    List.Chain' (fun a b => a.2.1 ≤ b.2.1)
      (text_splitter [['a', 'b', 'c'], ['d', 'e']]
        [⟨0, 3, 1⟩, ⟨3, 5, 2⟩]) := by
  have hwf : WFPageMap [⟨0, 3, 1⟩, ⟨3, 5, 2⟩] := by
    refine ⟨?_, ?_, ?_, ?_, ?_⟩
    · decide
    · decide
    · exact List.chain'_cons.mpr ⟨rfl, List.chain'_singleton _⟩
    · exact List.chain'_cons.mpr ⟨by decide, List.chain'_singleton _⟩
    · intro e he
      simp only [List.head?_cons, Option.some_inj] at he
      subst he
      rfl
  exact ⟨by decide, hwf,
    (text_splitter_order_spans_monotone [['a', 'b', 'c'], ['d', 'e']]
      [⟨0, 3, 1⟩, ⟨3, 5, 2⟩] (by decide) hwf).2.2⟩

theorem containment_fallback_unreachable_witness :
    ((0 : Int) < 5) ∧
    (∀ x ∈ ([⟨10, 20, 1⟩] : List PageMapEntry),
      ¬ ((0 : Int) < x.end_char ∧ (5 : Int) > x.start_char)) ∧
    ([⟨10, 20, 1⟩] : List PageMapEntry).find? (containsStart 0) = none :=
  ⟨by decide, by decide,
    (containment_fallback_unreachable 0 5 [⟨10, 20, 1⟩] (by decide)
      (by decide)).1⟩

